import Mathlib

/-!
Verification of the entropy-svc repository against its specification.

Bytes are modelled as `Nat` values below 256, byte buffers as `List Nat`,
and machine integers as `Nat` with explicit reduction modulo `2 ^ w`
wherever the Rust code can overflow or truncate.
-/

set_option maxHeartbeats 1000000

namespace EntropySvc

/-! ## Byte-encoding helpers (Rust `u64::to_le_bytes` / `i32::to_ne_bytes`) -/

/-- Little-endian 8-byte encoding of a 64-bit value, as produced by Rust
`u64::to_le_bytes`.  Only the low 64 bits of `n` are read, which models the
`as u64` cast. -/
def toLE64 (n : Nat) : List Nat :=
  [n % 256, n / 256 % 256, n / 65536 % 256, n / 16777216 % 256,
   n / 4294967296 % 256, n / 1099511627776 % 256,
   n / 281474976710656 % 256, n / 72057594037927936 % 256]

/-- Little-endian 4-byte encoding of a 32-bit value; on a little-endian host
this is also what `i32::to_ne_bytes` produces for the same bit pattern.  Only
the low 32 bits of `n` are read, which models the `as i32` cast. -/
def toLE32 (n : Nat) : List Nat :=
  [n % 256, n / 256 % 256, n / 65536 % 256, n / 16777216 % 256]

theorem toLE64_length (n : Nat) : (toLE64 n).length = 8 := rfl

theorem toLE32_length (n : Nat) : (toLE32 n).length = 4 := rfl

theorem toLE64_inj (a b : Nat) (ha : a < 2 ^ 64) (hb : b < 2 ^ 64)
    (h : toLE64 a = toLE64 b) : a = b := by
  simp [toLE64] at h
  omega

/-- Pointwise update of a word array modelled as a function. -/
def upd (v : Nat → Nat) (i x : Nat) : Nat → Nat := fun j => if j = i then x else v j

/-! ## BLAKE2b-256 (the `blake2` crate functionality used by `mixer.rs`)

Modelled from the spec: the repository hashes through `Blake2b<U32>` from the
external `blake2` crate (not part of `src/`); the compression function below
follows RFC 7693 with digest length 32 and no key. -/

/-- Right rotation of a 64-bit word. -/
def rotr64 (x n : Nat) : Nat := ((x >>> n) ||| (x <<< (64 - n))) % 2 ^ 64

/-- BLAKE2b initialisation vector. -/
def blakeIV (i : Nat) : Nat :=
  [0x6A09E667F3BCC908, 0xBB67AE8584CAA73B, 0x3C6EF372FE94F82B, 0xA54FF53A5F1D36F1,
   0x510E527FADE682D1, 0x9B05688C2B3E6C1F, 0x1F83D9ABFB41BD6B, 0x5BE0CD19137E2179].getD i 0

/-- BLAKE2b message schedule SIGMA. -/
def blakeSigma (r i : Nat) : Nat :=
  ([[0, 1, 2, 3, 4, 5, 6, 7, 8, 9, 10, 11, 12, 13, 14, 15],
    [14, 10, 4, 8, 9, 15, 13, 6, 1, 12, 0, 2, 11, 7, 5, 3],
    [11, 8, 12, 0, 5, 2, 15, 13, 10, 14, 3, 6, 7, 1, 9, 4],
    [7, 9, 3, 1, 13, 12, 11, 14, 2, 6, 5, 10, 4, 0, 15, 8],
    [9, 0, 5, 7, 2, 4, 10, 15, 14, 1, 11, 12, 6, 8, 3, 13],
    [2, 12, 6, 10, 0, 11, 8, 3, 4, 13, 7, 5, 15, 14, 1, 9],
    [12, 5, 1, 15, 14, 13, 4, 10, 0, 7, 6, 3, 9, 2, 8, 11],
    [13, 11, 7, 14, 12, 1, 3, 9, 5, 0, 15, 4, 8, 6, 2, 10],
    [6, 15, 14, 9, 11, 3, 0, 8, 12, 2, 13, 7, 1, 4, 10, 5],
    [10, 2, 8, 4, 7, 6, 1, 5, 15, 11, 9, 14, 3, 12, 13, 0]].getD (r % 10) []).getD i 0

/-- BLAKE2b mixing function G. -/
def gMix (v : Nat → Nat) (a b c d x y : Nat) : Nat → Nat :=
  let v := upd v a ((v a + v b + x) % 2 ^ 64)
  let v := upd v d (rotr64 (v d ^^^ v a) 32)
  let v := upd v c ((v c + v d) % 2 ^ 64)
  let v := upd v b (rotr64 (v b ^^^ v c) 24)
  let v := upd v a ((v a + v b + y) % 2 ^ 64)
  let v := upd v d (rotr64 (v d ^^^ v a) 16)
  let v := upd v c ((v c + v d) % 2 ^ 64)
  upd v b (rotr64 (v b ^^^ v c) 63)

/-- One BLAKE2b round over the working vector `v` with message words `m`. -/
def blakeRound (m : Nat → Nat) (v : Nat → Nat) (r : Nat) : Nat → Nat :=
  let s := blakeSigma r
  let v := gMix v 0 4 8 12 (m (s 0)) (m (s 1))
  let v := gMix v 1 5 9 13 (m (s 2)) (m (s 3))
  let v := gMix v 2 6 10 14 (m (s 4)) (m (s 5))
  let v := gMix v 3 7 11 15 (m (s 6)) (m (s 7))
  let v := gMix v 0 5 10 15 (m (s 8)) (m (s 9))
  let v := gMix v 1 6 11 12 (m (s 10)) (m (s 11))
  let v := gMix v 2 7 8 13 (m (s 12)) (m (s 13))
  gMix v 3 4 9 14 (m (s 14)) (m (s 15))

/-- Little-endian 64-bit message word `j` of a (zero-padded) 128-byte block. -/
def mword (block : List Nat) (j : Nat) : Nat :=
  block.getD (8 * j) 0 + 256 * block.getD (8 * j + 1) 0 +
  65536 * block.getD (8 * j + 2) 0 + 16777216 * block.getD (8 * j + 3) 0 +
  4294967296 * block.getD (8 * j + 4) 0 + 1099511627776 * block.getD (8 * j + 5) 0 +
  281474976710656 * block.getD (8 * j + 6) 0 +
  72057594037927936 * block.getD (8 * j + 7) 0

/-- BLAKE2b compression function F (RFC 7693 section 3.2). -/
def blake2bCompress (h : Nat → Nat) (t : Nat) (block : List Nat) (final : Bool) :
    Nat → Nat :=
  let m := mword block
  let v : Nat → Nat := fun i => if i < 8 then h i else blakeIV (i - 8)
  let v := upd v 12 (v 12 ^^^ (t % 2 ^ 64))
  let v := upd v 13 (v 13 ^^^ (t / 2 ^ 64 % 2 ^ 64))
  let v := if final then upd v 14 (v 14 ^^^ (2 ^ 64 - 1)) else v
  let v := (List.range 12).foldl (blakeRound m) v
  fun i => h i ^^^ v i ^^^ v (i + 8)

/-- BLAKE2b-256 initial state: IV with the parameter block (digest length 32,
key length 0, fanout 1, depth 1) folded into `h 0`. -/
def blake2bInit : Nat → Nat :=
  fun i => if i = 0 then blakeIV 0 ^^^ 0x01010020 else blakeIV i

/-- Process a message through the compression function, 128 bytes at a time;
the last (possibly short or empty) block is compressed with the final flag and
zero padding. -/
def blake2bUpdate (h : Nat → Nat) (t : Nat) (m : List Nat) : Nat → Nat :=
  if m.length ≤ 128 then
    blake2bCompress h (t + m.length) (m ++ List.replicate (128 - m.length) 0) true
  else
    blake2bUpdate (blake2bCompress h (t + 128) (m.take 128) false) (t + 128) (m.drop 128)
termination_by m.length
decreasing_by simp [List.length_drop]; omega

/-- BLAKE2b-256 digest of a byte string: the first 32 bytes of the
little-endian serialisation of the final state. -/
def blake2b256 (m : List Nat) : List Nat :=
  ((List.range 8).flatMap (fun i => toLE64 (blake2bUpdate blake2bInit 0 m i))).take 32

theorem blake2b256_length (m : List Nat) : (blake2b256 m).length = 32 := by
  simp [blake2b256, List.length_flatMap, toLE64, Function.comp, List.range_succ]

/-! ## `src/mixer.rs` -/

namespace Mixer

/-- Domain separation tag fed first by `mix_entropy`. -/
def MIX_TAG : List Nat := ("mixrand-entropy-v1").data.map Char.toNat

theorem MIX_TAG_length : MIX_TAG.length = 18 := by decide

/-- Streaming-hasher state of `Blake2b256::new()`: the bytes fed so far.
`update` appends and `finalize` hashes the accumulated bytes, which is the
defining property of the streaming interface of the `blake2` crate. -/
structure Hasher where
  buf : List Nat

def Hasher.new : Hasher := ⟨[]⟩

def Hasher.update (h : Hasher) (d : List Nat) : Hasher := ⟨h.buf ++ d⟩

def Hasher.finalize (h : Hasher) : List Nat := blake2b256 h.buf

/-- Body of the `for (label, data) in inputs` loop of `mix_entropy`:
length-prefixed label, then length-prefixed data.  `toLE64` reads only the low
64 bits of the length, which models the `len() as u64` cast. -/
def mixFeedPair (h : Hasher) (p : List Nat × List Nat) : Hasher :=
  (((h.update (toLE64 p.1.length)).update p.1).update (toLE64 p.2.length)).update p.2

/-- Model of `mixer::mix_entropy`: a label is its byte string
(`label.as_bytes()`), and the final 32-byte digest is copied out as the
seed. -/
def mix_entropy (inputs : List (List Nat × List Nat)) : List Nat :=
  let h := Hasher.new.update MIX_TAG
  let h := inputs.foldl mixFeedPair h
  h.finalize

/-- Length-prefixed encoding of one byte string, as described by the spec. -/
def encodeChunk (b : List Nat) : List Nat := toLE64 b.length ++ b

/-- Encoding of one (label, data) pair, as described by the spec. -/
def encodePair (p : List Nat × List Nat) : List Nat := encodeChunk p.1 ++ encodeChunk p.2

theorem mix_foldl_buf (inputs : List (List Nat × List Nat)) (buf : List Nat) :
    (inputs.foldl mixFeedPair ⟨buf⟩).buf = buf ++ inputs.flatMap encodePair := by
  induction inputs generalizing buf with
  | nil => simp
  | cons p rest ih =>
    simp only [List.foldl_cons, List.flatMap_cons]
    rw [show mixFeedPair ⟨buf⟩ p =
      ⟨buf ++ (toLE64 p.1.length ++ (p.1 ++ (toLE64 p.2.length ++ p.2)))⟩ by
        simp [mixFeedPair, Hasher.update]]
    rw [ih]
    simp [encodePair, encodeChunk]

/-- C1: for every input list of (label, data) pairs, `mix_entropy` equals the
BLAKE2b-256 hash of exactly the 18-byte tag followed, for each pair in order,
by the 8-byte little-endian label length, the label bytes, the 8-byte
little-endian data length and the data bytes; the empty list yields the
32-byte tag-only hash, and the function is deterministic. -/
theorem mix_entropy_spec :
    (∀ inputs, mix_entropy inputs = blake2b256 (MIX_TAG ++ inputs.flatMap encodePair)) ∧
    (mix_entropy []).length = 32 ∧
    (∀ l1 l2 : List (List Nat × List Nat), l1 = l2 → mix_entropy l1 = mix_entropy l2) := by
  have key : ∀ inputs, mix_entropy inputs =
      blake2b256 (MIX_TAG ++ inputs.flatMap encodePair) := by
    intro inputs
    show (inputs.foldl mixFeedPair ⟨[] ++ MIX_TAG⟩).finalize = _
    unfold Hasher.finalize
    rw [mix_foldl_buf]
    simp
  refine ⟨key, ?_, fun l1 l2 h => h ▸ rfl⟩
  rw [key]
  exact blake2b256_length _

/-- C1 witness: the theorem instantiated at concrete equal input lists. -/
theorem mix_entropy_spec_witness :
    ([([1], [2])] : List (List Nat × List Nat)) = [([1], [2])] ∧
    mix_entropy [([1], [2])] = mix_entropy [([1], [2])] :=
  ⟨rfl, mix_entropy_spec.2.2 [([1], [2])] [([1], [2])] rfl⟩

theorem encodeChunk_append_inj (b1 b2 r1 r2 : List Nat)
    (h1 : b1.length < 2 ^ 64) (h2 : b2.length < 2 ^ 64)
    (h : encodeChunk b1 ++ r1 = encodeChunk b2 ++ r2) : b1 = b2 ∧ r1 = r2 := by
  unfold encodeChunk at h
  rw [List.append_assoc, List.append_assoc] at h
  obtain ⟨hle, hrest⟩ := List.append_inj h (by simp [toLE64])
  have hlen : b1.length = b2.length := toLE64_inj _ _ h1 h2 hle
  exact List.append_inj hrest hlen

/-- C10: the byte sequence fed to the hash after the tag is an injective
encoding of the input list: two lists of (label, data) pairs whose pairwise
length-prefixed concatenations agree byte for byte are equal, so no two
distinct input lists present identical input to the hash.  The length bounds
reflect the Rust types, where slice lengths always fit in a `u64`. -/
theorem mix_encoding_injective :
    ∀ l1 l2 : List (List Nat × List Nat),
      (∀ p ∈ l1, p.1.length < 2 ^ 64 ∧ p.2.length < 2 ^ 64) →
      (∀ p ∈ l2, p.1.length < 2 ^ 64 ∧ p.2.length < 2 ^ 64) →
      l1.flatMap encodePair = l2.flatMap encodePair → l1 = l2 := by
  intro l1
  induction l1 with
  | nil =>
    intro l2 _ _ h
    cases l2 with
    | nil => rfl
    | cons q t =>
      exfalso
      have := congrArg List.length h
      simp [encodePair, encodeChunk, toLE64] at this
  | cons p t ih =>
    intro l2 hb1 hb2 h
    cases l2 with
    | nil =>
      exfalso
      have := congrArg List.length h
      simp [encodePair, encodeChunk, toLE64] at this
    | cons q t2 =>
      simp only [List.flatMap_cons] at h
      rw [show encodePair p ++ t.flatMap encodePair =
            encodeChunk p.1 ++ (encodeChunk p.2 ++ t.flatMap encodePair) by
              simp [encodePair],
          show encodePair q ++ t2.flatMap encodePair =
            encodeChunk q.1 ++ (encodeChunk q.2 ++ t2.flatMap encodePair) by
              simp [encodePair]] at h
      obtain ⟨hlab, hrest⟩ := encodeChunk_append_inj _ _ _ _
        (hb1 p (by simp)).1 (hb2 q (by simp)).1 h
      obtain ⟨hdat, htail⟩ := encodeChunk_append_inj _ _ _ _
        (hb1 p (by simp)).2 (hb2 q (by simp)).2 hrest
      have hpq : p = q := Prod.ext hlab hdat
      have hts : t = t2 :=
        ih t2 (fun r hr => hb1 r (by simp [hr])) (fun r hr => hb2 r (by simp [hr])) htail
      rw [hpq, hts]

/-- C10 witness: the injectivity theorem instantiated at a concrete list. -/
theorem mix_encoding_injective_witness :
    (∀ p ∈ ([([1], [2, 3])] : List (List Nat × List Nat)),
      p.1.length < 2 ^ 64 ∧ p.2.length < 2 ^ 64) ∧
    ([([1], [2, 3])] : List (List Nat × List Nat)) = [([1], [2, 3])] := by
  refine ⟨by decide, ?_⟩
  exact mix_encoding_injective [([1], [2, 3])] [([1], [2, 3])] (by decide) (by decide) rfl

end Mixer

/-! ## `src/daemon.rs` -/

namespace Daemon

/-- Mask lemma for the 4-byte alignment computation `(len + 3) & !3` of
`build_rand_pool_info`: on a 64-bit host `!3usize` is `2 ^ 64 - 4`, and the
mask rounds down to a multiple of 4. -/
theorem land_mask4 (x : Nat) (h : x < 2 ^ 64) :
    x &&& (2 ^ 64 - 4) = 4 * (x / 4) := by
  have hr : 4 * (x / 4) = (x >>> 2) <<< 2 := by
    rw [Nat.shiftLeft_eq, Nat.shiftRight_eq_div_pow]
    ring
  apply Nat.eq_of_testBit_eq
  intro i
  rw [Nat.testBit_and, hr]
  rcases Nat.lt_or_ge i 2 with h2 | h2
  · have hc0 : Nat.testBit 18446744073709551612 0 = false := by decide
    have hc1 : Nat.testBit 18446744073709551612 1 = false := by decide
    rw [Nat.testBit_shiftLeft]
    interval_cases i <;> simp [hc0, hc1]
  · rcases Nat.lt_or_ge i 64 with h64 | h64
    · have hm : ((2 : Nat) ^ 64 - 4) = (2 ^ 62 - 1) <<< 2 := by
        rw [Nat.shiftLeft_eq]; norm_num
      rw [Nat.testBit_shiftLeft, Nat.testBit_shiftRight, hm, Nat.testBit_shiftLeft,
        Nat.testBit_two_pow_sub_one]
      have h22 : 2 + (i - 2) = i := by omega
      rw [h22]
      simp only [h2, decide_True, Bool.true_and]
      have hlt : i - 2 < 62 := by omega
      simp [hlt, Bool.and_comm]
    · have hx : x.testBit i = false := Nat.testBit_lt_two_pow
        (lt_of_lt_of_le h (Nat.pow_le_pow_right (by norm_num) h64))
      have hs : ((x >>> 2) <<< 2).testBit i = false := by
        rw [Nat.testBit_shiftLeft, Nat.testBit_shiftRight]
        have h22 : 2 + (i - 2) = i := by omega
        simp [h22, hx]
      simp [hx, hs]

/-- Model of `buf[i .. i + src.len()].copy_from_slice(src)` on a byte
buffer. -/
def setRange (buf : List Nat) (i : Nat) (src : List Nat) : List Nat :=
  buf.take i ++ src ++ buf.drop (i + src.length)

theorem setRange_exact (pre old post src : List Nat) (h : old.length = src.length) :
    setRange (pre ++ (old ++ post)) pre.length src = pre ++ (src ++ post) := by
  unfold setRange
  have h1 : (pre ++ (old ++ post)).take pre.length = pre := List.take_left _ _
  have h2 : (pre ++ (old ++ post)).drop (pre.length + src.length) = post := by
    rw [List.drop_append, ← h, List.drop_left]
  rw [h1, h2, List.append_assoc]

/-- Model of `daemon::build_rand_pool_info` on a little-endian 64-bit host.
`toLE32` reads only the low 32 bits of its argument, which models the
`as i32` casts; the `usize` addition `data.len() + 3` wraps modulo `2 ^ 64`. -/
def build_rand_pool_info (data : List Nat) (entropy_bits : Nat) : List Nat :=
  let buf_size := data.length
  let padded_len := ((data.length + 3) % 2 ^ 64) &&& (2 ^ 64 - 4)
  let total := 4 + 4 + padded_len
  let buf := List.replicate total 0
  let buf := setRange buf 0 (toLE32 entropy_bits)
  let buf := setRange buf 4 (toLE32 buf_size)
  setRange buf 8 data

/-- C2: the built record is the native-endian (little-endian host) `i32`
`entropy_bits`, then the native-endian `i32` payload length, then the payload,
then zero padding, with total length `8 + len(data)` rounded up to a multiple
of 4; in particular `data = [1,2,3]`, `entropy_bits = 8` yields the 12 bytes
`08 00 00 00 03 00 00 00 01 02 03 00`.  The length bound reflects Rust, where
a slice length always satisfies `len + 3 < 2 ^ 64`. -/
theorem build_rand_pool_info_spec (data : List Nat) (entropy_bits : Nat)
    (hlen : data.length + 3 < 2 ^ 64) :
    build_rand_pool_info data entropy_bits =
      toLE32 entropy_bits ++ toLE32 data.length ++ data ++
        List.replicate (4 * ((data.length + 3) / 4) - data.length) 0 ∧
    (build_rand_pool_info data entropy_bits).length =
      8 + 4 * ((data.length + 3) / 4) := by
  have hpad : ((data.length + 3) % 2 ^ 64) &&& (2 ^ 64 - 4) =
      4 * ((data.length + 3) / 4) := by
    rw [Nat.mod_eq_of_lt hlen]
    exact land_mask4 _ hlen
  have hge : data.length ≤ 4 * ((data.length + 3) / 4) := by omega
  have hmain : build_rand_pool_info data entropy_bits =
      toLE32 entropy_bits ++ toLE32 data.length ++ data ++
        List.replicate (4 * ((data.length + 3) / 4) - data.length) 0 := by
    unfold build_rand_pool_info
    dsimp only
    rw [hpad]
    set P := 4 * ((data.length + 3) / 4) with hP
    set A := toLE32 entropy_bits with hA
    set B := toLE32 data.length with hB
    have hAlen : A.length = 4 := toLE32_length _
    have hBlen : B.length = 4 := toLE32_length _
    have e1 : List.replicate (4 + 4 + P) 0 =
        ([] : List Nat) ++ (List.replicate 4 0 ++ List.replicate (4 + P) 0) := by
      rw [List.nil_append, ← List.replicate_add]
      congr 1
      omega
    have s1 : setRange (List.replicate (4 + 4 + P) 0) 0 A =
        A ++ List.replicate (4 + P) 0 := by
      rw [e1]
      have := setRange_exact [] (List.replicate 4 0) (List.replicate (4 + P) 0) A
        (by simp [hAlen])
      simpa using this
    have e2 : A ++ List.replicate (4 + P) 0 =
        A ++ (List.replicate 4 0 ++ List.replicate P 0) := by
      rw [← List.replicate_add]
    have s2 : setRange (A ++ List.replicate (4 + P) 0) 4 B =
        A ++ (B ++ List.replicate P 0) := by
      rw [e2, ← hAlen]
      exact setRange_exact A (List.replicate 4 0) (List.replicate P 0) B (by simp [hBlen])
    have hsplitP : data.length + (P - data.length) = P := by omega
    have e3 : A ++ (B ++ List.replicate P 0) =
        (A ++ B) ++ (List.replicate data.length 0 ++ List.replicate (P - data.length) 0) := by
      conv_lhs => rw [← hsplitP]
      rw [List.replicate_add, List.append_assoc]
    have s3 : setRange (A ++ (B ++ List.replicate P 0)) 8 data =
        (A ++ B) ++ (data ++ List.replicate (P - data.length) 0) := by
      rw [e3, show (8 : Nat) = (A ++ B).length by simp [hAlen, hBlen]]
      exact setRange_exact (A ++ B) (List.replicate data.length 0)
        (List.replicate (P - data.length) 0) data (by simp)
    rw [s1, s2, s3]
    simp [List.append_assoc]
  refine ⟨hmain, ?_⟩
  rw [hmain]
  simp [toLE32]
  omega

/-- C2 witness: the record for payload `[1, 2, 3]` with 8 bits of credited
entropy is exactly `08 00 00 00 | 03 00 00 00 | 01 02 03 00`. -/
theorem build_rand_pool_info_spec_witness :
    build_rand_pool_info [1, 2, 3] 8 = [8, 0, 0, 0, 3, 0, 0, 0, 1, 2, 3, 0] ∧
    ([1, 2, 3] : List Nat).length + 3 < 2 ^ 64 ∧
    (build_rand_pool_info [1, 2, 3] 8).length = 8 + 4 * ((([1, 2, 3] : List Nat).length + 3) / 4) := by
  have h := build_rand_pool_info_spec [1, 2, 3] 8 (by decide)
  refine ⟨?_, by decide, ?_⟩
  · rw [h.1]; decide
  · rw [h.2]

end Daemon

/-! ## `src/entropy/jitter.rs` -/

namespace Jitter

/-- Busy-spin of `collect_jitter_samples`: `x = x.wrapping_mul(0x5DEECE66D)
.wrapping_add(0xB)` iterated a given number of times. -/
def spinLCG (x : Nat) : Nat → Nat
  | 0 => x
  | n + 1 => spinLCG ((x * 0x5DEECE66D + 0xB) % 2 ^ 64) n

/-- Trace of the `for i in 0..count` loop of `collect_jitter_samples`: one
(spin count, timing sample, new accumulator) triple per iteration.  The
monotonic clock readings are an arbitrary environment `clocks`, each reading
reduced to 64 bits; the spin result is discarded (`std::hint::black_box`). -/
def jitterTrace (clocks : Nat → Nat) (i acc : Nat) : Nat → List (Nat × Nat × Nat)
  | 0 => []
  | n + 1 =>
    let spin := 1000 + (acc &&& 0x1FF)
    let _x := spinLCG ((i * 0x6C62272E07BB0142) % 2 ^ 64) spin
    let ts := clocks i % 2 ^ 64
    let acc2 := (acc + ts) % 2 ^ 64
    (spin, ts, acc2) :: jitterTrace clocks (i + 1) acc2 n

/-- Byte output of the same loop: each sample appended as
`ts.to_le_bytes()`. -/
def jitterLoop (clocks : Nat → Nat) (i acc : Nat) : Nat → List Nat
  | 0 => []
  | n + 1 =>
    let spin := 1000 + (acc &&& 0x1FF)
    let _x := spinLCG ((i * 0x6C62272E07BB0142) % 2 ^ 64) spin
    let ts := clocks i % 2 ^ 64
    toLE64 ts ++ jitterLoop clocks (i + 1) ((acc + ts) % 2 ^ 64) n

/-- Model of `jitter::collect_jitter_samples` with the clock as an explicit
environment. -/
def collect_jitter_samples (count : Nat) (clocks : Nat → Nat) : List Nat :=
  jitterLoop clocks 0 0 count

/-- Accumulator value before iteration `k` of the loop started at index `i`
with accumulator `acc`: each iteration wrapping-adds its timing sample. -/
def jitterAcc (clocks : Nat → Nat) (i acc : Nat) : Nat → Nat
  | 0 => acc
  | k + 1 => (jitterAcc clocks i acc k + clocks (i + k) % 2 ^ 64) % 2 ^ 64

theorem jitterAcc_shift (clocks : Nat → Nat) (i acc : Nat) (k : Nat) :
    jitterAcc clocks (i + 1) ((acc + clocks i % 2 ^ 64) % 2 ^ 64) k =
      jitterAcc clocks i acc (k + 1) := by
  induction k with
  | zero => simp [jitterAcc]
  | succ k ih =>
    show (jitterAcc clocks (i + 1) _ k + clocks (i + 1 + k) % 2 ^ 64) % 2 ^ 64 = _
    rw [ih, show i + 1 + k = i + (k + 1) by omega]
    rfl

theorem jitterLoop_length (clocks : Nat → Nat) (i acc n : Nat) :
    (jitterLoop clocks i acc n).length = 8 * n := by
  induction n generalizing i acc with
  | zero => rfl
  | succ n ih =>
    show (toLE64 _ ++ jitterLoop clocks (i + 1) _ n).length = _
    rw [List.length_append, toLE64_length, ih]
    omega

theorem jitterLoop_eq_trace (clocks : Nat → Nat) (i acc n : Nat) :
    jitterLoop clocks i acc n =
      (jitterTrace clocks i acc n).flatMap (fun t => toLE64 t.2.1) := by
  induction n generalizing i acc with
  | zero => rfl
  | succ n ih =>
    show toLE64 _ ++ jitterLoop clocks (i + 1) _ n = _
    rw [ih]
    rfl

theorem jitterTrace_getD (clocks : Nat → Nat) :
    ∀ n k i acc, k < n →
      (jitterTrace clocks i acc n).getD k (0, 0, 0) =
        (1000 + (jitterAcc clocks i acc k &&& 0x1FF), clocks (i + k) % 2 ^ 64,
         jitterAcc clocks i acc (k + 1)) := by
  intro n
  induction n with
  | zero => intro k i acc h; omega
  | succ n ih =>
    intro k i acc hlt
    match k, hlt with
    | 0, _ => simp [jitterTrace, jitterAcc]
    | k + 1, hlt =>
      show (jitterTrace clocks (i + 1) _ n).getD k (0, 0, 0) = _
      have hk : k < n := by omega
      rw [ih k (i + 1) _ hk, jitterAcc_shift, jitterAcc_shift,
        show i + 1 + k = i + (k + 1) by omega]

/-- C3 counterexample: with every clock reading equal to 1 and `count = 2`,
the second iteration leaves the accumulator at `1 + 1 = 2` (wrapping
addition), whereas the XOR-fold of the previous accumulator `1` with the
sample `1` is `0`, so the claimed XOR update law is false on the code. -/
theorem collect_jitter_xor_counterexample :
    (jitterTrace (fun _ => 1) 0 0 2).getD 1 (0, 0, 0) = (1001, 1, 2) ∧
    ((jitterTrace (fun _ => 1) 0 0 2).getD 0 (0, 0, 0)).2.2 ^^^
      ((jitterTrace (fun _ => 1) 0 0 2).getD 1 (0, 0, 0)).2.1 = 0 ∧
    ((jitterTrace (fun _ => 1) 0 0 2).getD 1 (0, 0, 0)).2.2 ≠ 0 := by
  refine ⟨by decide, by decide, by decide⟩

/-- C3 (amended): `collect_jitter_samples(count)` outputs exactly `8·count`
bytes, namely each iteration's 64-bit timing sample in little-endian order;
iteration `k` spins `1000 + (accumulator &&& 0x1FF)` times; and after each
iteration the new accumulator is the previous accumulator plus the sample,
wrapping modulo `2 ^ 64` (the code uses `wrapping_add`, not an XOR-fold). -/
theorem collect_jitter_samples_spec :
    (∀ count clocks, (collect_jitter_samples count clocks).length = 8 * count) ∧
    (∀ count clocks, collect_jitter_samples count clocks =
      (jitterTrace clocks 0 0 count).flatMap (fun t => toLE64 t.2.1)) ∧
    (∀ count clocks k, k < count →
      (jitterTrace clocks 0 0 count).getD k (0, 0, 0) =
        (1000 + (jitterAcc clocks 0 0 k &&& 0x1FF), clocks k % 2 ^ 64,
         (jitterAcc clocks 0 0 k + clocks k % 2 ^ 64) % 2 ^ 64)) := by
  refine ⟨fun count clocks => jitterLoop_length clocks 0 0 count,
    fun count clocks => jitterLoop_eq_trace clocks 0 0 count,
    fun count clocks k hk => ?_⟩
  rw [jitterTrace_getD clocks count k 0 0 hk]
  simp [jitterAcc, Nat.zero_add]

/-- C3 witness: the amended theorem instantiated at `count = 1` with all
clock readings 5. -/
theorem collect_jitter_samples_spec_witness :
    (0 : Nat) < 1 ∧
    (jitterTrace (fun _ => 5) 0 0 1).getD 0 (0, 0, 0) =
      (1000 + (jitterAcc (fun _ => 5) 0 0 0 &&& 0x1FF), (fun _ => (5 : Nat)) 0 % 2 ^ 64,
       (jitterAcc (fun _ => 5) 0 0 0 + (fun _ => (5 : Nat)) 0 % 2 ^ 64) % 2 ^ 64) :=
  ⟨by decide, collect_jitter_samples_spec.2.2 1 (fun _ => 5) 0 (by decide)⟩

end Jitter

/-! ## `src/stats.rs` -/

namespace Stats

/-- Number of set bits of a byte (`u8::count_ones` for values below 256). -/
def count_ones (b : Nat) : Nat := ((List.range 8).filter (fun k => b.testBit k)).length

/-- Fields of `stats::TestResult` relevant to the claims: the pass flag and
the integer statistic recorded in `value` (the name, float range and detail
string carry no further information). -/
structure TestResult where
  passed : Bool
  value : Nat

/-- Model of `stats::fips_monobit`: count the 1-bits of the sample and require
`count > 9725 && count < 10275`. -/
def fips_monobit (data : List Nat) : TestResult :=
  let count := (data.map count_ones).sum
  { passed := decide (9725 < count) && decide (count < 10275), value := count }

theorem fips_monobit_passed (data : List Nat) :
    (fips_monobit data).passed =
      (decide (9725 < (data.map count_ones).sum) &&
        decide ((data.map count_ones).sum < 10275)) := rfl

theorem fips_monobit_value (data : List Nat) :
    (fips_monobit data).value = (data.map count_ones).sum := rfl

/-- C4: for every 2500-byte input, `fips_monobit` passes iff the number of
1-bits is strictly between 9725 and 10275; the all-zeros input fails with
count 0 and the all-`0xAA` input passes with count exactly 10000. -/
theorem fips_monobit_spec :
    (∀ data : List Nat, data.length = 2500 →
      ((fips_monobit data).passed = true ↔
        9725 < (data.map count_ones).sum ∧ (data.map count_ones).sum < 10275)) ∧
    ((fips_monobit (List.replicate 2500 0)).value = 0 ∧
      (fips_monobit (List.replicate 2500 0)).passed = false) ∧
    ((fips_monobit (List.replicate 2500 0xAA)).value = 10000 ∧
      (fips_monobit (List.replicate 2500 0xAA)).passed = true) := by
  have h0 : count_ones 0 = 0 := by decide
  have hAA : count_ones 0xAA = 4 := by decide
  have hz : ((List.replicate 2500 (0 : Nat)).map count_ones).sum = 0 := by
    rw [List.map_replicate, h0, List.sum_replicate, smul_eq_mul]
  have ha : ((List.replicate 2500 (0xAA : Nat)).map count_ones).sum = 10000 := by
    rw [List.map_replicate, hAA, List.sum_replicate, smul_eq_mul]
  refine ⟨fun data _ => ?_, ⟨?_, ?_⟩, ⟨?_, ?_⟩⟩
  · rw [fips_monobit_passed]
    simp only [Bool.and_eq_true, decide_eq_true_eq]
  · rw [fips_monobit_value, hz]
  · rw [fips_monobit_passed, hz]
    decide
  · rw [fips_monobit_value, ha]
  · rw [fips_monobit_passed, ha]
    decide

/-- C4 witness: the pass criterion instantiated at the all-`0xAA` sample. -/
theorem fips_monobit_spec_witness :
    (List.replicate 2500 (0xAA : Nat)).length = 2500 ∧
    ((fips_monobit (List.replicate 2500 0xAA)).passed = true ↔
      9725 < ((List.replicate 2500 (0xAA : Nat)).map count_ones).sum ∧
        ((List.replicate 2500 (0xAA : Nat)).map count_ones).sum < 10275) :=
  ⟨List.length_replicate 2500 _,
    fips_monobit_spec.1 (List.replicate 2500 0xAA) (List.length_replicate 2500 _)⟩

/-- MSB-first bits of one byte, as scanned by the inner
`for bit_pos in (0..8).rev()` loop of the runs tests. -/
def byteBits (b : Nat) : List Nat :=
  [(b >>> 7) &&& 1, (b >>> 6) &&& 1, (b >>> 5) &&& 1, (b >>> 4) &&& 1,
   (b >>> 3) &&& 1, (b >>> 2) &&& 1, (b >>> 1) &&& 1, (b >>> 0) &&& 1]

/-- Bit stream of the whole sample, bytes in order, MSB first in each byte. -/
def bitsOf (data : List Nat) : List Nat := data.flatMap byteBits

theorem bitsOf_le_one (data : List Nat) : ∀ x ∈ bitsOf data, x ≤ 1 := by
  intro x hx
  rw [bitsOf, List.mem_flatMap] at hx
  obtain ⟨b, _, hb⟩ := hx
  have h1 : ∀ k, (b >>> k) &&& 1 ≤ 1 := fun k => Nat.and_le_right
  simp only [byteBits, List.mem_cons, List.not_mem_nil, or_false] at hb
  rcases hb with h | h | h | h | h | h | h | h <;> exact h ▸ h1 _

/-- Published FIPS 140-2 lower bounds for run-length buckets 1..6+. -/
def runsLower : List Nat := [2315, 1114, 527, 240, 103, 103]

/-- Published FIPS 140-2 upper bounds for run-length buckets 1..6+. -/
def runsUpper : List Nat := [2685, 1386, 723, 384, 209, 209]

/-- State of the `fips_runs` scanning loop after consuming the given bits:
run-length counters for 0-bits and 1-bits, the current bit value, and the
current run length.  Mirrors the loop body of `stats::fips_runs`. -/
def runsLoop (r0 r1 : Nat → Nat) (cur len : Nat) : List Nat →
    ((Nat → Nat) × (Nat → Nat) × Nat × Nat)
  | [] => (r0, r1, cur, len)
  | bit :: rest =>
    if bit = cur then runsLoop r0 r1 cur (len + 1) rest
    else
      let bucket := min (len - 1) 5
      if cur = 0 then runsLoop (upd r0 bucket (r0 bucket + 1)) r1 bit 1 rest
      else runsLoop r0 (upd r1 bucket (r1 bucket + 1)) bit 1 rest

/-- Recording of the last run after the loop (`// Record the last run`). -/
def runsFlush : ((Nat → Nat) × (Nat → Nat) × Nat × Nat) → ((Nat → Nat) × (Nat → Nat))
  | (r0, r1, cur, len) =>
    let bucket := min (len - 1) 5
    if cur = 0 then (upd r0 bucket (r0 bucket + 1), r1)
    else (r0, upd r1 bucket (r1 bucket + 1))

/-- Model of `stats::fips_runs` (its `passed` field): scan the bits MSB-first,
count runs by value and length bucket, and require every one of the 12 counts
to lie within the published inclusive bounds. -/
def fips_runs (data : List Nat) : Bool :=
  let p := runsFlush (runsLoop (fun _ => 0) (fun _ => 0) ((data.headD 0 >>> 7) &&& 1) 0
    (bitsOf data))
  (List.range 6).all (fun i =>
    (decide (runsLower.getD i 0 ≤ p.1 i) && decide (p.1 i ≤ runsUpper.getD i 0)) &&
    (decide (runsLower.getD i 0 ≤ p.2 i) && decide (p.2 i ≤ runsUpper.getD i 0)))

/-- Maximal runs of a bit list carrying an open run of value `b` and length
`n`: each entry of the result is a (bit value, run length) pair. -/
def runsAux (b n : Nat) : List Nat → List (Nat × Nat)
  | [] => [(b, n)]
  | c :: l => if c = b then runsAux b (n + 1) l else (b, n) :: runsAux c 1 l

/-- Maximal runs of a bit list, as described by the spec. -/
def runsOf : List Nat → List (Nat × Nat)
  | [] => []
  | b :: l => runsAux b 1 l

/-- Number of maximal runs with the given bit value whose length falls in
bucket `i` (buckets 0..4 are lengths 1..5, bucket 5 is length at least 6). -/
def bucketCount (rs : List (Nat × Nat)) (v i : Nat) : Nat :=
  (rs.filter (fun p => decide (p.1 = v) && decide (min (p.2 - 1) 5 = i))).length

theorem bucketCount_cons (p : Nat × Nat) (rs : List (Nat × Nat)) (v i : Nat) :
    bucketCount (p :: rs) v i =
      (if p.1 = v ∧ min (p.2 - 1) 5 = i then 1 else 0) + bucketCount rs v i := by
  simp only [bucketCount, List.filter_cons]
  by_cases h1 : p.1 = v <;> by_cases h2 : min (p.2 - 1) 5 = i <;>
    simp [h1, h2, Nat.add_comm]

/-- Counter selection: `v = 0` reads the 0-runs array, any other value the
1-runs array (runs values are bits, so only 0 and 1 occur). -/
def selCount (p : (Nat → Nat) × (Nat → Nat)) (v : Nat) : Nat → Nat :=
  if v = 0 then p.1 else p.2

/-- Loop invariant of `fips_runs`: running the scan from counters `(r0, r1)`
with open run `(b, n)` and then recording the final run yields the initial
counters plus the bucket counts of the maximal runs of the remaining bits
prefixed by the open run. -/
theorem runsLoop_flush_count (bs : List Nat) :
    ∀ b n r0 r1 v i, (∀ x ∈ bs, x ≤ 1) → b ≤ 1 → v ≤ 1 →
      selCount (runsFlush (runsLoop r0 r1 b n bs)) v i =
        selCount (r0, r1) v i + bucketCount (runsAux b n bs) v i := by
  induction bs with
  | nil =>
    intro b n r0 r1 v i _ hb hv
    simp only [runsLoop, runsAux, runsFlush, bucketCount_cons, bucketCount,
      List.filter_nil, List.length_nil]
    interval_cases b <;> interval_cases v <;>
      by_cases hbk : min (n - 1) 5 = i <;>
      simp [selCount, upd, hbk] <;> omega
  | cons c rest ih =>
    intro b n r0 r1 v i hall hb hv
    have hc : c ≤ 1 := hall c (by simp)
    have hrest : ∀ x ∈ rest, x ≤ 1 := fun x hx => hall x (by simp [hx])
    by_cases hcb : c = b
    · simp only [runsLoop, runsAux, if_pos hcb]
      exact ih b (n + 1) r0 r1 v i hrest hb hv
    · simp only [runsLoop, runsAux, if_neg hcb]
      by_cases hb0 : b = 0
      · rw [if_pos hb0, ih c 1 _ r1 v i hrest hc hv, bucketCount_cons]
        subst hb0
        interval_cases v <;>
          by_cases hbk : min (n - 1) 5 = i <;>
          simp [selCount, upd, hbk] <;> omega
      · rw [if_neg hb0, ih c 1 r0 _ v i hrest hc hv, bucketCount_cons]
        have hb1 : b = 1 := by omega
        subst hb1
        interval_cases v <;>
          by_cases hbk : min (n - 1) 5 = i <;>
          simp [selCount, upd, hbk] <;> omega

theorem runsLoop_first (r0 r1 : Nat → Nat) (cur : Nat) (t : List Nat) :
    runsLoop r0 r1 cur 0 (cur :: t) = runsLoop r0 r1 cur 1 t := by
  simp [runsLoop]

/-- C5: for every 2500-byte input, `fips_runs` scans the 20000 bits MSB-first,
classifies every maximal run of identical bits by value and length bucket
1..5 or 6+, and passes iff all 12 (value, bucket) counts lie within the
published inclusive bounds `[2315, 1114, 527, 240, 103, 103]` and
`[2685, 1386, 723, 384, 209, 209]`. -/
theorem fips_runs_spec (data : List Nat) (hlen : data.length = 2500) :
    fips_runs data = true ↔
      ∀ i < 6,
        (runsLower.getD i 0 ≤ bucketCount (runsOf (bitsOf data)) 0 i ∧
          bucketCount (runsOf (bitsOf data)) 0 i ≤ runsUpper.getD i 0) ∧
        (runsLower.getD i 0 ≤ bucketCount (runsOf (bitsOf data)) 1 i ∧
          bucketCount (runsOf (bitsOf data)) 1 i ≤ runsUpper.getD i 0) := by
  obtain ⟨d, rest, rfl⟩ : ∃ d rest, data = d :: rest := by
    cases data with
    | nil => simp at hlen
    | cons d rest => exact ⟨d, rest, rfl⟩
  have hview : bitsOf (d :: rest) =
      ((d >>> 7) &&& 1) :: ((byteBits d).tail ++ bitsOf rest) := rfl
  have htail : ∀ x ∈ (byteBits d).tail ++ bitsOf rest, x ≤ 1 := by
    intro x hx
    exact bitsOf_le_one (d :: rest) x (by rw [hview]; exact List.mem_cons_of_mem _ hx)
  have hcur : (d >>> 7) &&& 1 ≤ 1 := Nat.and_le_right
  have hruns : runsOf (((d >>> 7) &&& 1) :: ((byteBits d).tail ++ bitsOf rest)) =
      runsAux ((d >>> 7) &&& 1) 1 ((byteBits d).tail ++ bitsOf rest) := rfl
  have hcount : ∀ v i, v ≤ 1 →
      selCount (runsFlush (runsLoop (fun _ => 0) (fun _ => 0) ((d >>> 7) &&& 1) 1
        ((byteBits d).tail ++ bitsOf rest))) v i =
      bucketCount (runsOf (((d >>> 7) &&& 1) :: ((byteBits d).tail ++ bitsOf rest))) v i := by
    intro v i hv
    rw [runsLoop_flush_count _ _ 1 _ _ v i htail hcur hv, hruns]
    simp [selCount]
  have hp1 : ∀ i, (runsFlush (runsLoop (fun _ => 0) (fun _ => 0) ((d >>> 7) &&& 1) 1
      ((byteBits d).tail ++ bitsOf rest))).1 i =
      bucketCount (runsOf (((d >>> 7) &&& 1) :: ((byteBits d).tail ++ bitsOf rest))) 0 i := by
    intro i
    have := hcount 0 i (by omega)
    simpa [selCount] using this
  have hp2 : ∀ i, (runsFlush (runsLoop (fun _ => 0) (fun _ => 0) ((d >>> 7) &&& 1) 1
      ((byteBits d).tail ++ bitsOf rest))).2 i =
      bucketCount (runsOf (((d >>> 7) &&& 1) :: ((byteBits d).tail ++ bitsOf rest))) 1 i := by
    intro i
    have := hcount 1 i (by omega)
    simpa [selCount] using this
  unfold fips_runs
  dsimp only
  rw [show (((d : Nat) :: rest).headD 0 >>> 7) &&& 1 = (d >>> 7) &&& 1 from rfl,
    hview, runsLoop_first, List.all_eq_true]
  constructor
  · intro h i hi
    have hmem := h i (List.mem_range.mpr hi)
    simp only [Bool.and_eq_true, decide_eq_true_eq] at hmem
    rw [hp1 i, hp2 i] at hmem
    exact hmem
  · intro h i hi
    rw [List.mem_range] at hi
    have hprop := h i hi
    rw [← hp1 i, ← hp2 i] at hprop
    simp only [Bool.and_eq_true, decide_eq_true_eq]
    exact hprop

/-- C5 witness: the runs criterion instantiated at the all-`0xAA` sample. -/
theorem fips_runs_spec_witness :
    (List.replicate 2500 (0xAA : Nat)).length = 2500 ∧
    (fips_runs (List.replicate 2500 0xAA) = true ↔
      ∀ i < 6,
        (runsLower.getD i 0 ≤
            bucketCount (runsOf (bitsOf (List.replicate 2500 0xAA))) 0 i ∧
          bucketCount (runsOf (bitsOf (List.replicate 2500 0xAA))) 0 i ≤
            runsUpper.getD i 0) ∧
        (runsLower.getD i 0 ≤
            bucketCount (runsOf (bitsOf (List.replicate 2500 0xAA))) 1 i ∧
          bucketCount (runsOf (bitsOf (List.replicate 2500 0xAA))) 1 i ≤
            runsUpper.getD i 0)) :=
  ⟨List.length_replicate 2500 _,
    fips_runs_spec (List.replicate 2500 0xAA) (List.length_replicate 2500 _)⟩

end Stats

/-! ## `src/csprng.rs` -/

namespace Csprng

/-- Left rotation of a 32-bit word. -/
def rotl32 (x n : Nat) : Nat := ((x <<< n) % 2 ^ 32) ||| (x >>> (32 - n))

/-- ChaCha quarter round on positions `a b c d` of the working state.

Modelled from the spec: `csprng::generate` seeds a `ChaCha20Rng` from the
external `rand_chacha` crate (not part of `src/`); the spec describes it as a
keyed ChaCha stream cipher with 20 rounds and a zero nonce, which the
definitions below implement (RFC 8439 block function with a 64-bit block
counter and zero nonce). -/
def qround (v : Nat → Nat) (a b c d : Nat) : Nat → Nat :=
  let v := upd v a ((v a + v b) % 2 ^ 32)
  let v := upd v d (rotl32 (v d ^^^ v a) 16)
  let v := upd v c ((v c + v d) % 2 ^ 32)
  let v := upd v b (rotl32 (v b ^^^ v c) 12)
  let v := upd v a ((v a + v b) % 2 ^ 32)
  let v := upd v d (rotl32 (v d ^^^ v a) 8)
  let v := upd v c ((v c + v d) % 2 ^ 32)
  upd v b (rotl32 (v b ^^^ v c) 7)

/-- One ChaCha double round: four column rounds then four diagonal rounds. -/
def chachaDoubleRound (v : Nat → Nat) : Nat → Nat :=
  let v := qround v 0 4 8 12
  let v := qround v 1 5 9 13
  let v := qround v 2 6 10 14
  let v := qround v 3 7 11 15
  let v := qround v 0 5 10 15
  let v := qround v 1 6 11 12
  let v := qround v 2 7 8 13
  qround v 3 4 9 14

/-- Little-endian 32-bit key word `j` of the 32-byte seed. -/
def seedWord (seed : List Nat) (j : Nat) : Nat :=
  seed.getD (4 * j) 0 + 256 * seed.getD (4 * j + 1) 0 +
  65536 * seed.getD (4 * j + 2) 0 + 16777216 * seed.getD (4 * j + 3) 0

/-- Initial ChaCha20 state for block `ctr`: the four constant words, the
eight key words, the 64-bit block counter, and a zero nonce. -/
def chachaState (seed : List Nat) (ctr : Nat) : Nat → Nat :=
  fun i =>
    if i < 4 then [0x61707865, 0x3320646e, 0x79622d32, 0x6b206574].getD i 0
    else if i < 12 then seedWord seed (i - 4)
    else if i = 12 then ctr % 2 ^ 32
    else if i = 13 then ctr / 2 ^ 32 % 2 ^ 32
    else 0

/-- The 64-byte ChaCha20 keystream block with index `ctr`: ten double rounds,
feed-forward addition, little-endian serialisation. -/
def chachaBlock (seed : List Nat) (ctr : Nat) : List Nat :=
  let s0 := chachaState seed ctr
  let v := (List.range 10).foldl (fun v _ => chachaDoubleRound v) s0
  (List.range 16).flatMap (fun i => toLE32 ((s0 i + v i) % 2 ^ 32))

/-- Model of `csprng::generate`: the first `count` bytes of the ChaCha20
keystream keyed by the seed. -/
def generate (seed : List Nat) (count : Nat) : List Nat :=
  ((List.range ((count + 63) / 64)).flatMap (chachaBlock seed)).take count

theorem chachaBlock_length (seed : List Nat) (ctr : Nat) :
    (chachaBlock seed ctr).length = 64 := by
  simp [chachaBlock, List.length_flatMap, toLE32, Function.comp, List.range_succ]

theorem chachaStream_length (seed : List Nat) (m : Nat) :
    ((List.range m).flatMap (chachaBlock seed)).length = 64 * m := by
  induction m with
  | zero => rfl
  | succ m ih =>
    rw [List.range_succ, List.flatMap_append, List.length_append, ih]
    simp [chachaBlock_length]
    omega

/-- C6: `generate(seed, n)` always has exactly `n` bytes, and for every
`k ≥ 0` it is the length-`n` prefix of `generate(seed, n + k)`: the keyed
ChaCha20 stream is consistent across requested lengths. -/
theorem generate_stream_consistent (seed : List Nat) (n k : Nat) :
    (generate seed n).length = n ∧
    generate seed n = (generate seed (n + k)).take n := by
  have hdiv : ∀ c : Nat, c ≤ 64 * ((c + 63) / 64) := by
    intro c
    omega
  constructor
  · rw [generate, List.length_take, chachaStream_length]
    have := hdiv n
    omega
  · rw [generate, generate, List.take_take]
    have hmin : min n (n + k) = n := by omega
    rw [hmin]
    have hble : (n + 63) / 64 ≤ (n + k + 63) / 64 := by omega
    rw [show (n + k + 63) / 64 = (n + 63) / 64 + ((n + k + 63) / 64 - (n + 63) / 64) by
      omega]
    rw [List.range_add, List.flatMap_append]
    rw [List.take_append_of_le_length]
    rw [chachaStream_length]
    exact hdiv n

end Csprng

/-! ## `src/check.rs` -/

namespace Check

/-- Rust strings are modelled as their character sequences; `trim` drops
whitespace from both ends, as `str::trim` does. -/
def trimChars (cs : List Char) : List Char :=
  ((cs.dropWhile Char.isWhitespace).reverse.dropWhile Char.isWhitespace).reverse

/-- Model of `str::strip_suffix(c).is_some()` for a single character. -/
def endsWithChar (cs : List Char) (c : Char) : Bool := cs.getLast? = some c

def emptyDurMsg : List Char := ("empty duration").data

def zeroDurMsg : List Char := ("duration must be > 0").data

def invalidDurPre : List Char := ("invalid duration: ").data

/-- Model of `str::parse::<u64>()`: an optional leading plus sign followed by
at least one ASCII digit, rejecting values that do not fit in 64 bits.  (The
accumulated value is monotone in the digits consumed, so checked accumulation
overflows exactly when the final value reaches `2 ^ 64`.) -/
def parseU64 (s : List Char) : Option Nat :=
  let cs := match s with
    | c :: rest => if c = '+' then rest else c :: rest
    | [] => []
  if cs.isEmpty then none
  else if cs.all Char.isDigit then
    let n := cs.foldl (fun acc c => acc * 10 + (c.toNat - 48)) 0
    if n < 2 ^ 64 then some n else none
  else none

/-- Unit-suffix handling of `check::parse_duration`: strip one of the
suffixes `s`, `m`, `h`, `d` (tried in that order, as `strip_suffix` is) and
return the remaining numeric part with the multiplier in seconds; a bare
number means minutes. -/
def stripUnit (t : List Char) : List Char × Nat :=
  if endsWithChar t 's' then (t.dropLast, 1)
  else if endsWithChar t 'm' then (t.dropLast, 60)
  else if endsWithChar t 'h' then (t.dropLast, 3600)
  else if endsWithChar t 'd' then (t.dropLast, 86400)
  else (t, 60)

/-- Model of `check::parse_duration`, returning the duration in seconds.  The
`u64` product `num * multiplier` wraps modulo `2 ^ 64` (release-profile Rust
semantics). -/
def parse_duration (s : List Char) : Except (List Char) Nat :=
  let t := trimChars s
  if t.isEmpty then Except.error emptyDurMsg
  else
    let p := stripUnit t
    match parseU64 p.1 with
    | none => Except.error (invalidDurPre ++ t)
    | some num =>
      if num = 0 then Except.error zeroDurMsg
      else Except.ok (num * p.2 % 2 ^ 64)

def dur30s : List Char := ("30s").data

def dur5m : List Char := ("5m").data

def dur2h : List Char := ("2h").data

def dur1d : List Char := ("1d").data

def dur90 : List Char := ("90").data

def durEmpty : List Char := ("").data

def dur0s : List Char := ("0s").data

def dur10x : List Char := ("10x").data

def durHuge : List Char := ("213503982334602d").data

/-- C7 counterexample: `"213503982334602d"` parses, but `213503982334602 *
86400` overflows `u64`, so the code returns the wrapped value 61184 seconds
rather than the product the claim promises. -/
theorem parse_duration_overflow_counterexample :
    parse_duration durHuge = Except.ok 61184 ∧
    (61184 : Nat) ≠ 213503982334602 * 86400 := by
  exact ⟨rfl, by decide⟩

/-- C7 (amended): `parse_duration` errors exactly on an empty (trimmed)
input, a numeric part that does not parse as a `u64`, and a zero duration;
otherwise it returns the number times the suffix multiplier (`s` is 1, `m`
60, `h` 3600, `d` 86400, bare means minutes) reduced modulo `2 ^ 64`, the
`u64` wrapping product; `"30s"`, `"5m"`, `"2h"`, `"1d"`, `"90"` give 30, 300,
7200, 86400, 5400 seconds and `""`, `"0s"`, `"10x"` are invalid. -/
theorem parse_duration_spec :
    (∀ s : List Char, (∃ e, parse_duration s = Except.error e) ↔
      ((trimChars s).isEmpty = true ∨ parseU64 (stripUnit (trimChars s)).1 = none ∨
        parseU64 (stripUnit (trimChars s)).1 = some 0)) ∧
    (∀ s num, (trimChars s).isEmpty = false →
      parseU64 (stripUnit (trimChars s)).1 = some num → num ≠ 0 →
      parse_duration s = Except.ok (num * (stripUnit (trimChars s)).2 % 2 ^ 64)) ∧
    parse_duration dur30s = Except.ok 30 ∧
    parse_duration dur5m = Except.ok 300 ∧
    parse_duration dur2h = Except.ok 7200 ∧
    parse_duration dur1d = Except.ok 86400 ∧
    parse_duration dur90 = Except.ok 5400 ∧
    parse_duration durEmpty = Except.error emptyDurMsg ∧
    parse_duration dur0s = Except.error zeroDurMsg ∧
    parse_duration dur10x = Except.error (invalidDurPre ++ dur10x) := by
  refine ⟨fun s => ?_, fun s num hne hp hnz => ?_, rfl, rfl, rfl, rfl, rfl, rfl, rfl, rfl⟩
  · unfold parse_duration
    by_cases ht : (trimChars s).isEmpty
    · rw [if_pos ht]
      constructor
      · intro _
        exact Or.inl ht
      · intro _
        exact ⟨emptyDurMsg, rfl⟩
    · rw [if_neg ht]
      cases hp : parseU64 (stripUnit (trimChars s)).1 with
      | none =>
        simp [ht, hp]
      | some num =>
        by_cases h0 : num = 0
        · subst h0
          simp [ht, hp]
        · simp [ht, hp, h0]
  · unfold parse_duration
    rw [if_neg (by rw [hne]; exact Bool.false_ne_true)]
    dsimp only
    rw [hp]
    simp [hnz]

/-- C7 witness: the success branch of the amended theorem instantiated at
`"30s"`. -/
theorem parse_duration_spec_witness :
    ((trimChars dur30s).isEmpty = false ∧
      parseU64 (stripUnit (trimChars dur30s)).1 = some 30 ∧ (30 : Nat) ≠ 0) ∧
    parse_duration dur30s = Except.ok (30 * (stripUnit (trimChars dur30s)).2 % 2 ^ 64) :=
  ⟨⟨rfl, rfl, by decide⟩,
    parse_duration_spec.2.1 dur30s 30 rfl rfl (by decide)⟩

end Check

/-! ## `src/entropy/mod.rs` -/

namespace EntropySel

/-- The field of `config::CpuRngConfig` that `entropy::generate` reads when
labelling a CPU-RNG success. -/
structure CpuRngConfig where
  oversample : Nat

/-- Result of `cpurng::collect_cpu_entropy_standalone`. -/
structure CpuResult where
  bytes : List Nat
  source_label : String

/-- Outcome environment for one call: the result each adapter would return
for the requested byte count.  This models the I/O performed by
`hwrng::read_hwrng`, `cpurng::collect_cpu_entropy_standalone`,
`haveged::read_haveged` and `fallback::generate_fallback`. -/
structure Env where
  hwrng : Except String (List Nat)
  cpurng : Except String CpuResult
  haveged : Except String (List Nat)
  fallback : Except String (List Nat)

/-- Result type of `entropy::generate` (`EntropyResult`). -/
structure EntropyResult where
  bytes : List Nat
  source : String

def hwrngLabel : String := "hardware RNG (/dev/hwrng)"

def cpuLabelPre : String := "CPU hardware RNG ("

def commaSep : String := ", "

def oversampleSuffix : String := "x oversample)"

def closeParen : String := ")"

def havegedLabel : String := "haveged (/dev/random)"

def fallbackLabel : String :=
  "fallback (urandom + procfs + jitter + cpu-rng → BLAKE2b → ChaCha20)"

/-- Source label attached to a CPU-RNG success, including the oversampling
factor when `config.oversample > 1`. -/
def cpuSourceLabel (config : CpuRngConfig) (r : CpuResult) : String :=
  if config.oversample > 1 then
    cpuLabelPre ++ r.source_label ++ commaSep ++ toString config.oversample ++
      oversampleSuffix
  else cpuLabelPre ++ r.source_label ++ closeParen

/-- Model of `entropy::generate`: try `/dev/hwrng`, then the CPU hardware
RNG, then haveged, then the fallback compositor, returning the first
success; earlier failures are only logged. -/
def generate (config : CpuRngConfig) (env : Env) : Except String EntropyResult :=
  match env.hwrng with
  | Except.ok bytes => Except.ok ⟨bytes, hwrngLabel⟩
  | Except.error _ =>
    match env.cpurng with
    | Except.ok result => Except.ok ⟨result.bytes, cpuSourceLabel config result⟩
    | Except.error _ =>
      match env.haveged with
      | Except.ok bytes => Except.ok ⟨bytes, havegedLabel⟩
      | Except.error _ =>
        match env.fallback with
        | Except.ok bytes => Except.ok ⟨bytes, fallbackLabel⟩
        | Except.error e => Except.error e

/-- First success of a list of attempts, as described by the spec: earlier
failures are swallowed and the last attempt decides the outcome. -/
def firstSuccess : List (Except String EntropyResult) → Except String EntropyResult
  | [] => Except.error ""
  | [x] => x
  | x :: xs =>
    match x with
    | Except.ok r => Except.ok r
    | Except.error _ => firstSuccess xs

/-- The four adapters in the spec's priority order, with their labels. -/
def attempts (config : CpuRngConfig) (env : Env) : List (Except String EntropyResult) :=
  [env.hwrng.map (fun b => ⟨b, hwrngLabel⟩),
   env.cpurng.map (fun r => ⟨r.bytes, cpuSourceLabel config r⟩),
   env.haveged.map (fun b => ⟨b, havegedLabel⟩),
   env.fallback.map (fun b => ⟨b, fallbackLabel⟩)]

/-- C9: `entropy::generate` equals the first success of the four adapters in
priority order `/dev/hwrng`, CPU RNG, haveged, fallback; a success at any
level is returned without consulting any later adapter (the result depends
only on the earlier outcomes), and when the first three fail the outcome,
success or error, is exactly the fallback compositor's. -/
theorem generate_priority_spec :
    (∀ config env, generate config env = firstSuccess (attempts config env)) ∧
    (∀ config env b, env.hwrng = Except.ok b →
      generate config env = Except.ok ⟨b, hwrngLabel⟩) ∧
    (∀ config env e r, env.hwrng = Except.error e → env.cpurng = Except.ok r →
      generate config env = Except.ok ⟨r.bytes, cpuSourceLabel config r⟩) ∧
    (∀ config env e1 e2 b, env.hwrng = Except.error e1 →
      env.cpurng = Except.error e2 → env.haveged = Except.ok b →
      generate config env = Except.ok ⟨b, havegedLabel⟩) ∧
    (∀ config env e1 e2 e3, env.hwrng = Except.error e1 →
      env.cpurng = Except.error e2 → env.haveged = Except.error e3 →
      generate config env = env.fallback.map (fun b => ⟨b, fallbackLabel⟩)) := by
  refine ⟨fun config env => ?_, fun config env b h1 => ?_,
    fun config env e r h1 h2 => ?_, fun config env e1 e2 b h1 h2 h3 => ?_,
    fun config env e1 e2 e3 h1 h2 h3 => ?_⟩
  · obtain ⟨hw, cpu, hav, fb⟩ := env
    cases hw <;> cases cpu <;> cases hav <;> cases fb <;>
      simp [generate, attempts, firstSuccess, Except.map]
  · obtain ⟨hw, cpu, hav, fb⟩ := env
    cases h1
    simp [generate]
  · obtain ⟨hw, cpu, hav, fb⟩ := env
    cases h1
    cases h2
    simp [generate]
  · obtain ⟨hw, cpu, hav, fb⟩ := env
    cases h1
    cases h2
    cases h3
    simp [generate]
  · obtain ⟨hw, cpu, hav, fb⟩ := env
    cases h1
    cases h2
    cases h3
    cases fb <;> simp [generate, Except.map]

/-- C9 witness: with `/dev/hwrng` succeeding, the selector returns its bytes
and label regardless of the other adapters. -/
theorem generate_priority_spec_witness :
    (Env.mk (Except.ok [7]) (Except.error hwrngLabel) (Except.error hwrngLabel)
        (Except.error hwrngLabel)).hwrng = Except.ok [7] ∧
    generate ⟨1⟩ (Env.mk (Except.ok [7]) (Except.error hwrngLabel)
        (Except.error hwrngLabel) (Except.error hwrngLabel)) =
      Except.ok ⟨[7], hwrngLabel⟩ :=
  ⟨rfl, generate_priority_spec.2.1 ⟨1⟩ _ [7] rfl⟩

end EntropySel

end EntropySvc
